import Mathlib

/-!
# Verification of the microfinance app's validation engine and tree renderer

A shallow embedding of the two core components of the repository:

* the rule-based form-validation engine of `src/utils/validation.ts`
  (`useFormValidation`, `required`, `numeric`, `positiveNumber`), and
* the recursive JSON tree renderer of `src/components/FormField.vue`
  (the `NestedCard` component), its wrapper
  `src/components/ContractAnalysisDisplay.vue`, and the alternative
  `JsonTreeViewer` leaf formatter of `src/views/Home.vue`.

JavaScript runtime values are modelled by the inductive type `Js`; JS number
results (including `NaN` and the infinities produced by `Number(...)`
coercion) by `JsNum`.  Machine floats are modelled as rationals; string
primitives (`trim`, `split`, number parsing and printing) are re-implemented
structurally over `List Char` so that all definitions evaluate by `decide`.
-/

/-- A JavaScript runtime value, as far as the validation engine and the tree
renderer inspect one: the JSON scalars plus `undefined`, arrays and plain
objects (an object is its `Object.entries` list, insertion-ordered).
Finite JS numbers are modelled as rationals. -/
inductive Js where
  | null : Js
  | undef : Js
  | bool (b : Bool) : Js
  | num (q : ℚ) : Js
  | str (s : String) : Js
  | arr (elems : List Js) : Js
  | obj (fields : List (String × Js)) : Js

/-- Structural induction for `Js` (the nested lists make the auto-generated
eliminator unusable with the `induction` tactic). -/
theorem Js.treeInd (motive : Js → Prop)
    (hnull : motive .null) (hundef : motive .undef)
    (hbool : ∀ b, motive (.bool b)) (hnum : ∀ q, motive (.num q))
    (hstr : ∀ s, motive (.str s))
    (harr : ∀ elems, (∀ x ∈ elems, motive x) → motive (.arr elems))
    (hobj : ∀ fields, (∀ k x, (k, x) ∈ fields → motive x) → motive (.obj fields)) :
    ∀ v, motive v := by
  have key : ∀ (n : Nat) (v : Js), sizeOf v ≤ n → motive v := by
    intro n
    induction n with
    | zero => intro v hv; cases v <;> simp at hv
    | succ n ih =>
      intro v hv
      cases v with
      | null => exact hnull
      | undef => exact hundef
      | bool b => exact hbool b
      | num q => exact hnum q
      | str s => exact hstr s
      | arr elems =>
        refine harr elems ?_
        intro x hmem
        refine ih x ?_
        have h1 : sizeOf x < sizeOf elems := List.sizeOf_lt_of_mem hmem
        have h2 : sizeOf (Js.arr elems) = 1 + sizeOf elems := by simp
        omega
      | obj fields =>
        refine hobj fields ?_
        intro k x hmem
        refine ih x ?_
        have h1 : sizeOf (k, x) < sizeOf fields := List.sizeOf_lt_of_mem hmem
        have h2 : sizeOf x < sizeOf (k, x) := by simp
        have h3 : sizeOf (Js.obj fields) = 1 + sizeOf fields := by simp
        omega
  intro v
  exact key (sizeOf v) v le_rfl

/-! ## Decimal numerals

JS renders array indices (`Object.entries` on an array) and integers as
ordinary base-10 numerals.  `decChars` is a fuel-based decimal printer that
evaluates by `decide`; injectivity is proved through `Nat.digits`. -/

/-- Base-10 digit characters of `n`, most significant first; `fuel` bounds the
recursion and any `fuel > n` is enough. -/
def decChars : Nat → Nat → List Char
  | 0, _ => []
  | fuel + 1, n =>
    if n < 10 then [Nat.digitChar n]
    else decChars fuel (n / 10) ++ [Nat.digitChar (n % 10)]

/-- The decimal numeral of `n`, exactly what JS `String(n)` produces for a
non-negative integer (and what `Object.entries` uses as an array-index key). -/
def natToDecString (n : Nat) : String := ⟨decChars (n + 1) n⟩

theorem decChars_eq_digits : ∀ (fuel n : Nat), n < fuel →
    decChars fuel n =
      if n = 0 then ['0'] else ((Nat.digits 10 n).map Nat.digitChar).reverse := by
  intro fuel
  induction fuel with
  | zero => intro n hn; omega
  | succ fuel ih =>
    intro n hn
    by_cases hsmall : n < 10
    · rcases Nat.eq_zero_or_pos n with h0 | hpos
      · subst h0
        simp only [decChars, if_pos (by norm_num : (0 : Nat) < 10), if_pos rfl]
        decide
      · have hdig : Nat.digits 10 n = [n] := by
          rw [Nat.digits_def' (by norm_num : 1 < 10) hpos]
          simp [Nat.mod_eq_of_lt hsmall, Nat.div_eq_of_lt hsmall]
        rw [if_neg (by omega : ¬ n = 0)]
        simp [decChars, hsmall, hdig]
    · have hpos : 0 < n := by omega
      have hdivpos : 0 < n / 10 := Nat.div_pos (by omega) (by norm_num)
      have hdivlt : n / 10 < fuel := by
        have : n / 10 < n := Nat.div_lt_self hpos (by norm_num)
        omega
      have hdig : Nat.digits 10 n = n % 10 :: Nat.digits 10 (n / 10) :=
        Nat.digits_def' (by norm_num : 1 < 10) hpos
      rw [show decChars (fuel + 1) n = decChars fuel (n / 10) ++ [Nat.digitChar (n % 10)] by
            simp [decChars, hsmall],
          ih (n / 10) hdivlt]
      rw [if_neg (by omega : ¬ n / 10 = 0), if_neg (by omega : ¬ n = 0)]
      simp [hdig]

theorem digitChar_inj_lt10 : ∀ a < 10, ∀ b < 10, Nat.digitChar a = Nat.digitChar b → a = b := by
  decide

theorem map_digitChar_inj : ∀ (l1 l2 : List Nat), (∀ x ∈ l1, x < 10) → (∀ x ∈ l2, x < 10) →
    l1.map Nat.digitChar = l2.map Nat.digitChar → l1 = l2 := by
  intro l1
  induction l1 with
  | nil => intro l2 _ _ h; cases l2 <;> simp_all
  | cons a t ihl =>
    intro l2 h1 h2 h
    cases l2 with
    | nil => simp at h
    | cons b t2 =>
      simp only [List.map_cons, List.cons.injEq] at h
      have ha : a < 10 := h1 a (by simp)
      have hb : b < 10 := h2 b (by simp)
      have hab : a = b := digitChar_inj_lt10 a ha b hb h.1
      have ht : t = t2 := ihl t2 (fun x hx => h1 x (by simp [hx]))
        (fun x hx => h2 x (by simp [hx])) h.2
      simp [hab, ht]

theorem natToDecString_injective : ∀ a b : Nat, natToDecString a = natToDecString b → a = b := by
  have spec : ∀ n, decChars (n + 1) n =
      if n = 0 then ['0'] else ((Nat.digits 10 n).map Nat.digitChar).reverse :=
    fun n => decChars_eq_digits (n + 1) n (by omega)
  have digitsAll : ∀ n, ∀ x ∈ Nat.digits 10 n, x < 10 :=
    fun n x hx => Nat.digits_lt_base (by norm_num) hx
  intro a b h
  have hl : decChars (a + 1) a = decChars (b + 1) b := by
    have := congrArg String.data h
    simpa [natToDecString] using this
  rw [spec a, spec b] at hl
  by_cases ha : a = 0 <;> by_cases hb : b = 0
  · omega
  · exfalso
    simp only [ha, if_pos rfl, if_neg hb] at hl
    have hmap : (Nat.digits 10 b).map Nat.digitChar = [Nat.digitChar 0] := by
      have := congrArg List.reverse hl
      simpa using this.symm
    have : Nat.digits 10 b = [0] :=
      map_digitChar_inj _ [0] (digitsAll b) (by simp) (by simpa using hmap)
    have hb0 : b = Nat.ofDigits 10 (Nat.digits 10 b) := (Nat.ofDigits_digits 10 b).symm
    rw [this] at hb0
    simp [Nat.ofDigits] at hb0
    omega
  · exfalso
    simp only [hb, if_pos rfl, if_neg ha] at hl
    have hmap : (Nat.digits 10 a).map Nat.digitChar = [Nat.digitChar 0] := by
      have := congrArg List.reverse hl
      simpa using this
    have : Nat.digits 10 a = [0] :=
      map_digitChar_inj _ [0] (digitsAll a) (by simp) (by simpa using hmap)
    have ha0 : a = Nat.ofDigits 10 (Nat.digits 10 a) := (Nat.ofDigits_digits 10 a).symm
    rw [this] at ha0
    simp [Nat.ofDigits] at ha0
    omega
  · simp only [if_neg ha, if_neg hb] at hl
    have hmap : (Nat.digits 10 a).map Nat.digitChar = (Nat.digits 10 b).map Nat.digitChar := by
      have := congrArg List.reverse hl
      simpa using this
    have : Nat.digits 10 a = Nat.digits 10 b :=
      map_digitChar_inj _ _ (digitsAll a) (digitsAll b) hmap
    exact Nat.digits_inj_iff.mp this

/-! ## String primitives

Re-implementations over `List Char` of the string operations the source code
uses (`String.prototype.trim`, `String.prototype.split`, index strings,
`toUpperCase` of a single character), so everything reduces by `decide`.
JS whitespace is approximated by `Char.isWhitespace`, which agrees on the
ASCII whitespace the application handles. -/

/-- `String.prototype.trim`: drop leading and trailing whitespace. -/
def trimChars (cs : List Char) : List Char :=
  ((cs.dropWhile Char.isWhitespace).reverse.dropWhile Char.isWhitespace).reverse

/-- `value.trim()` on a JS string. -/
def jsTrim (s : String) : String := ⟨trimChars s.data⟩

/-- `String.prototype.split(sep)` for a one-character separator (used as
`key.split('_')` when formatting display keys). -/
def splitOnChar (sep : Char) : List Char → List (List Char)
  | [] => [[]]
  | c :: rest =>
    if c = sep then [] :: splitOnChar sep rest
    else
      match splitOnChar sep rest with
      | [] => [[c]]
      | hd :: tl => (c :: hd) :: tl

/-- `word.charAt(0).toUpperCase() + word.slice(1)` (the empty word maps to
itself, since `''.charAt(0)` is `''`). -/
def capFirst : List Char → String
  | [] => ""
  | c :: rest => ⟨c.toUpper :: rest⟩

/-- `Array.prototype.join(sep)` on a list of strings. -/
def joinWith (sep : String) : List String → String
  | [] => ""
  | [x] => x
  | x :: rest => x ++ sep ++ joinWith sep rest

/-- The display form of an object key, from `ContractAnalysisDisplay.formatTitle`
and the identical transformation in `NestedCard.entries`:
`key.split('_').map(word => word.charAt(0).toUpperCase() + word.slice(1)).join(' ')`. -/
def formatTitle (key : String) : String :=
  joinWith " " ((splitOnChar '_' key.data).map capFirst)

/-! ## JS number coercion (`Number(value)`, `isNaN(value)`)

`numeric`, `positiveNumber` and friends coerce their argument with the JS
abstract `ToNumber` operation.  `JsNum` is a JS number result: `NaN`, the two
infinities, or a finite value (modelled as a rational). -/

/-- The result of coercing a JS value to a number. -/
inductive JsNum where
  | nan : JsNum
  | posInf : JsNum
  | negInf : JsNum
  | fin (q : ℚ) : JsNum
deriving DecidableEq

/-- Value of a list of decimal digit characters, most significant first. -/
def digitsToNat (ds : List Char) : Nat :=
  ds.foldl (fun acc c => acc * 10 + (c.toNat - 48)) 0

/-- Parse a decimal mantissa `digits [ '.' digits ]` (either digit group may be
empty but not both), returning its value and the unconsumed characters. -/
def parseMantissa (cs : List Char) : Option (ℚ × List Char) :=
  let ip := cs.takeWhile Char.isDigit
  let rest := cs.dropWhile Char.isDigit
  match rest with
  | '.' :: r =>
    let fp := r.takeWhile Char.isDigit
    let rest2 := r.dropWhile Char.isDigit
    if ip.isEmpty && fp.isEmpty then none
    else some ((digitsToNat ip : ℚ) + (digitsToNat fp : ℚ) / (10 : ℚ) ^ fp.length, rest2)
  | _ => if ip.isEmpty then none else some ((digitsToNat ip : ℚ), rest)

/-- Parse an unsigned decimal numeral with optional exponent part,
`mantissa [ ('e'|'E') ['+'|'-'] digits ]`, requiring all input consumed. -/
def parseDec (cs : List Char) : Option ℚ :=
  match parseMantissa cs with
  | none => none
  | some (m, rest) =>
    match rest with
    | [] => some m
    | e :: r =>
      if e = 'e' ∨ e = 'E' then
        let (esign, r2) : ℤ × List Char :=
          match r with
          | '+' :: t => (1, t)
          | '-' :: t => (-1, t)
          | t => (1, t)
        let ed := r2.takeWhile Char.isDigit
        let r3 := r2.dropWhile Char.isDigit
        if ed.isEmpty || !r3.isEmpty then none
        else some (m * (10 : ℚ) ^ (esign * (digitsToNat ed : ℤ)))
      else none

/-- The value of a hexadecimal digit character, if it is one. -/
def hexVal (c : Char) : Option Nat :=
  if c.isDigit then some (c.toNat - 48)
  else if 'a' ≤ c ∧ c ≤ 'f' then some (c.toNat - 87)
  else if 'A' ≤ c ∧ c ≤ 'F' then some (c.toNat - 55)
  else none

def parseRadixAux (radix : Nat) : List Char → Nat → Option Nat
  | [], acc => some acc
  | c :: rest, acc =>
    match hexVal c with
    | some d => if d < radix then parseRadixAux radix rest (acc * radix + d) else none
    | none => none

/-- Parse a non-empty run of base-`radix` digits. -/
def parseRadix (radix : Nat) (cs : List Char) : Option Nat :=
  if cs.isEmpty then none else parseRadixAux radix cs 0

/-- JS `StringToNumber`: trim, empty means `0`, then an optionally signed
`Infinity` or decimal numeral, or an unsigned `0x`/`0o`/`0b` radix literal;
everything else is `NaN`. -/
def jsStringToNumber (s : String) : JsNum :=
  match trimChars s.data with
  | [] => .fin 0
  | '0' :: x :: r =>
    if x = 'x' ∨ x = 'X' then
      match parseRadix 16 r with
      | some n => .fin n
      | none => .nan
    else if x = 'o' ∨ x = 'O' then
      match parseRadix 8 r with
      | some n => .fin n
      | none => .nan
    else if x = 'b' ∨ x = 'B' then
      match parseRadix 2 r with
      | some n => .fin n
      | none => .nan
    else
      match parseDec ('0' :: x :: r) with
      | some q => .fin q
      | none => .nan
  | cs =>
    let (sgn, body) : ℚ × List Char :=
      match cs with
      | '+' :: t => (1, t)
      | '-' :: t => (-1, t)
      | t => (1, t)
    if body = "Infinity".data then
      if sgn = 1 then .posInf else .negInf
    else
      match parseDec body with
      | some q => .fin (sgn * q)
      | none => .nan

/-! ## JS number printing

`Number.prototype.toString`, `Number.prototype.toFixed(2)` and
`Number.prototype.toLocaleString()` (default `en-US` options), modelled on the
ideal rational value.  A fractional expansion that does not terminate within
the fuel is truncated; every value the application prints terminates. -/

/-- Decimal digits of a fraction `q ∈ [0,1)`, stopping when the remainder is
exhausted (or the fuel runs out). -/
def fracDecChars : Nat → ℚ → List Char
  | 0, _ => []
  | fuel + 1, q =>
    if q = 0 then []
    else
      let d : ℤ := (q * 10).floor
      Nat.digitChar d.toNat :: fracDecChars fuel (q * 10 - d)

/-- JS `Number.prototype.toString` for a finite number (no exponent notation:
the application never prints magnitudes at or beyond `1e21`). -/
def jsNumToString (q : ℚ) : String :=
  let ip : Nat := (⌊|q|⌋).toNat
  let fr := fracDecChars 64 (|q| - ⌊|q|⌋)
  (if q < 0 then "-" else "") ++ natToDecString ip ++
    (if fr.isEmpty then "" else "." ++ ⟨fr⟩)

/-- Two-digit, zero-padded decimal numeral (`toFixed(2)` fraction part). -/
def pad2 (k : Nat) : String :=
  if k < 10 then "0" ++ natToDecString k else natToDecString k

/-- JS `x.toFixed(2)`: round the magnitude to hundredths, half away from zero,
and print with exactly two digits after the decimal point. -/
def jsToFixed2 (x : ℚ) : String :=
  let n : Nat := (⌊|x| * 100 + 1 / 2⌋).toNat
  (if x < 0 then "-" else "") ++ natToDecString (n / 100) ++ "." ++ pad2 (n % 100)

/-- Insert a thousands separator after every three digits, on the reversed
digit list. -/
def groupThousandsAux : List Char → List Char
  | d1 :: d2 :: d3 :: rest@(_ :: _) => d1 :: d2 :: d3 :: ',' :: groupThousandsAux rest
  | l => l

/-- Strip trailing zeros from a fraction-digit list. -/
def stripTrailingZeros (ds : List Char) : List Char :=
  (ds.reverse.dropWhile (· = '0')).reverse

/-- JS `Number.prototype.toLocaleString()` with the default `en-US` locale:
round to at most three fraction digits (half away from zero), group the
integer digits in threes with commas, and drop trailing fraction zeros. -/
def jsToLocaleString (q : ℚ) : String :=
  let m : Nat := (⌊|q| * 1000 + 1 / 2⌋).toNat
  let ipChars := (natToDecString (m / 1000)).data
  let frChars := stripTrailingZeros (pad2 (m % 1000 / 10) ++ natToDecString (m % 10)).data
  (if q < 0 then "-" else "") ++ (⟨(groupThousandsAux ipChars.reverse).reverse⟩ : String) ++
    (if frChars.isEmpty then "" else "." ++ ⟨frChars⟩)

/-! ## JS string conversion and `ToNumber` on non-strings -/

mutual

/-- JS `String(value)` / `value.toString()` as the renderer and coercions use
it: primitives print their literal form, arrays join their elements with
commas (`Array.prototype.toString`), plain objects print `[object Object]`. -/
def jsValueToString : Js → String
  | .null => "null"
  | .undef => "undefined"
  | .bool b => if b then "true" else "false"
  | .num q => jsNumToString q
  | .str s => s
  | .arr elems => jsArrayJoin elems
  | .obj _ => "[object Object]"

/-- `Array.prototype.join(',')`: `null` and `undefined` elements print as
empty, every other element via `toString`. -/
def jsArrayJoin : List Js → String
  | [] => ""
  | x :: rest =>
    (match x with
     | .null => ""
     | .undef => ""
     | y => jsValueToString y) ++ (if rest.isEmpty then "" else ",") ++ jsArrayJoin rest

end

/-- The JS abstract `ToNumber` operation, as applied by `isNaN(value)` and
`Number(value)` in the validation rules: `null ↦ 0`, `undefined ↦ NaN`,
booleans to `0`/`1`, strings via `StringToNumber`, arrays and objects via
their `toString` followed by `StringToNumber`. -/
def jsToNumber : Js → JsNum
  | .null => .fin 0
  | .undef => .nan
  | .bool b => .fin (if b then 1 else 0)
  | .num q => .fin q
  | .str s => jsStringToNumber s
  | v => jsStringToNumber (jsValueToString v)

/-- `Number(value) > 0` where the left side is a coercion result. -/
def JsNum.gtZero : JsNum → Bool
  | .nan => false
  | .posInf => true
  | .negInf => false
  | .fin q => 0 < q

/-! ## The two leaf formatters -/

/-- `NestedCard.formatValue` (`src/components/FormField.vue`): `null` prints a
placeholder, booleans `Yes`/`No`, numbers in `[0,1]` as a two-decimal
percentage and all other numbers via `toLocaleString`; anything else falls
through to `value.toString()`, which throws a `TypeError` on `undefined` —
modelled as `none`. -/
def formatValue : Js → Option String
  | .null => some "Not specified"
  | .bool b => some (if b then "Yes" else "No")
  | .num q =>
    some (if 0 ≤ q ∧ q ≤ 1 then jsToFixed2 (q * 100) ++ "%" else jsToLocaleString q)
  | .undef => none
  | v => some (jsValueToString v)

/-- `JsonTreeViewer.formattedValue` (`src/views/Home.vue`): fixed placeholders
for `null`/`undefined`, quoted strings, numbers and booleans via `toString`,
and the empty string for containers. -/
def formattedValue : Js → String
  | .null => "null"
  | .undef => "undefined"
  | .str s => "\"" ++ s ++ "\""
  | .num q => jsNumToString q
  | .bool b => if b then "true" else "false"
  | _ => ""

/-! ## The validation engine (`src/utils/validation.ts`) -/

/-- `interface ValidationRule { validate: (value: any) => boolean; message: string }`. -/
structure ValidationRule where
  validate : Js → Bool
  message : String

/-- `ValidationRules`: a rule-set object, field name to ordered rule list
(JS object keys are unique and insertion-ordered, so a list of pairs). -/
abbrev ValidationRules := List (String × List ValidationRule)

/-- Strict equality `value === ''`. -/
def isEmptyString : Js → Bool
  | .str s => s == ""
  | _ => false

/-- The `required(fieldName)` rule: arrays need an element, strings a
non-whitespace character; otherwise the value must not be `null`,
`undefined` or `''`. -/
def required (fieldName : String) : ValidationRule where
  validate value :=
    match value with
    | .arr elems => elems.length > 0
    | .str s => (jsTrim s).length > 0
    | .null => false
    | .undef => false
    | _ => true
  message := fieldName ++ " is required"

/-- The `numeric()` rule: `!isNaN(value) && value !== ''`. -/
def numeric : ValidationRule where
  validate value := !(jsToNumber value == .nan) && !(isEmptyString value)
  message := "Must be a number"

/-- The `positiveNumber()` rule: `!isNaN(value) && Number(value) > 0`. -/
def positiveNumber : ValidationRule where
  validate value := !(jsToNumber value == .nan) && (jsToNumber value).gtZero
  message := "Must be a positive number"

/-- The error map `validate` computes from a rule set and a form-data record
(`formData : String → Js` reads a field, an absent field being `Js.undef`):
for each field of the rule set, the first failing rule contributes its
message (`fieldRules.find(rule => !rule.validate(formData[field]))`). -/
def computeErrors (rules : ValidationRules) (formData : String → Js) :
    List (String × String) :=
  rules.filterMap fun fr =>
    ((fr.2).find? fun rule => !(rule.validate (formData fr.1))).map
      fun failingRule => (fr.1, failingRule.message)

/-- `validate(formData)`'s return value: `Object.keys(newErrors).length === 0`. -/
def validate (rules : ValidationRules) (formData : String → Js) : Bool :=
  (computeErrors rules formData).isEmpty

/-- The engine's sole mutable state: the held error map (`errors` ref). -/
structure EngineState where
  errors : List (String × String)

/-- One `validate(formData)` call as a state transition: the newly computed
error map replaces the held one, and the boolean result is returned. -/
def validateStep (rules : ValidationRules) (_st : EngineState)
    (formData : String → Js) : EngineState × Bool :=
  let newErrors := computeErrors rules formData
  (⟨newErrors⟩, newErrors.isEmpty)

/-- `clearErrors()`: reset the held error map to empty. -/
def clearErrors (_st : EngineState) : EngineState := ⟨[]⟩

/-- Reading one field of an error map (`errors.value[field]`). -/
def lookupField (m : List (String × String)) (field : String) : Option String :=
  (m.find? fun e => e.1 == field).map fun e => e.2

/-- `getError(field)`: `errors.value[field] || ''`. -/
def getError (st : EngineState) (field : String) : String :=
  (lookupField st.errors field).getD ""

/-! ## The tree renderer (`NestedCard` in `src/components/FormField.vue`,
sections in `src/components/ContractAnalysisDisplay.vue`) -/

/-- `isObject`: `data !== null && typeof data === 'object'`. -/
def isObjectJs : Js → Bool
  | .arr _ => true
  | .obj _ => true
  | _ => false

/-- `Object.entries(data)`: an object's own entries in insertion order, an
array's elements keyed by their decimal index strings. -/
def jsEntries : Js → List (String × Js)
  | .obj fields => fields
  | .arr elems => elems.enum.map fun p => (natToDecString p.1, p.2)
  | _ => []

/-- The payload of a `leaf-click` emit:
`{key: entry.key, value: entry.value, path: [...currentPath, entry.originalKey]}`. -/
structure LeafClickEvent where
  key : String
  value : Js
  path : List String

mutual

/-- Every `leaf-click` event obtainable from a `NestedCard` rendered with the
given `title`, `data` and `path` props: a leaf row emits the display key, the
leaf value and `path ++ [originalKey]`; a container child recurses with its
display key as title; a `NestedCard` whose own `data` is a leaf emits from the
title row (`handleTitleClick`). -/
def nestedCardEvents (title : String) (data : Js) (path : List String) :
    List LeafClickEvent :=
  match data with
  | .obj fields => nestedCardFieldEvents fields path
  | .arr elems => nestedCardElemEvents 0 elems path
  | leaf => [⟨title, leaf, path⟩]

/-- Events of the entry rows of an object container. -/
def nestedCardFieldEvents : List (String × Js) → List String → List LeafClickEvent
  | [], _ => []
  | (key, value) :: rest, path =>
    (match value with
     | .obj fields => nestedCardEvents (formatTitle key) (.obj fields) (path ++ [key])
     | .arr elems => nestedCardEvents (formatTitle key) (.arr elems) (path ++ [key])
     | leaf => [⟨formatTitle key, leaf, path ++ [key]⟩]) ++
      nestedCardFieldEvents rest path

/-- Events of the entry rows of an array container (`Object.entries` keys the
elements by index strings, counted from `i`). -/
def nestedCardElemEvents : Nat → List Js → List String → List LeafClickEvent
  | _, [], _ => []
  | i, value :: rest, path =>
    (match value with
     | .obj fields =>
       nestedCardEvents (formatTitle (natToDecString i)) (.obj fields)
         (path ++ [natToDecString i])
     | .arr elems =>
       nestedCardEvents (formatTitle (natToDecString i)) (.arr elems)
         (path ++ [natToDecString i])
     | leaf => [⟨formatTitle (natToDecString i), leaf, path ++ [natToDecString i]⟩]) ++
      nestedCardElemEvents (i + 1) rest path

end

/-- Every `leaf-click` event `ContractAnalysisDisplay` can forward for a given
analysis payload: one `NestedCard` per `Object.entries(analysis)` section,
titled `formatTitle(key)` and rooted at path `[key]`. -/
def contractAnalysisEvents (analysis : Js) : List LeafClickEvent :=
  (jsEntries analysis).flatMap fun s => nestedCardEvents (formatTitle s.1) s.2 [s.1]

mutual

/-- The standard recursive walk of a JSON value: the (path, value) pairs of
all its leaves, paths made of original object keys and decimal array-index
strings. -/
def jsonWalk : Js → List (List String × Js)
  | .obj fields => jsonWalkFields fields
  | .arr elems => jsonWalkElems 0 elems
  | leaf => [([], leaf)]

def jsonWalkFields : List (String × Js) → List (List String × Js)
  | [] => []
  | (key, value) :: rest =>
    (jsonWalk value).map (fun p => (key :: p.1, p.2)) ++ jsonWalkFields rest

def jsonWalkElems : Nat → List Js → List (List String × Js)
  | _, [] => []
  | i, value :: rest =>
    (jsonWalk value).map (fun p => (natToDecString i :: p.1, p.2)) ++
      jsonWalkElems (i + 1) rest

end

/-- Looking a path up in a JSON value (`v[seg0][seg1]...`), through the same
entry view the renderer uses. -/
def lookupJs (v : Js) : List String → Option Js
  | [] => some v
  | seg :: rest =>
    match (jsEntries v).find? fun e => e.1 == seg with
    | some e => lookupJs e.2 rest
    | none => none

/-- Whether a key list contains a repeated key. -/
def hasDupKeys : List String → Bool
  | [] => false
  | k :: rest => rest.contains k || hasDupKeys rest

mutual

/-- Well-formedness of a JSON value as the deserialization of an HTTP JSON
response: every object's keys are distinct. -/
def jsWF : Js → Bool
  | .obj fields => !(hasDupKeys (fields.map Prod.fst)) && jsWFFields fields
  | .arr elems => jsWFElems elems
  | _ => true

def jsWFFields : List (String × Js) → Bool
  | [] => true
  | (_, value) :: rest => jsWF value && jsWFFields rest

def jsWFElems : List Js → Bool
  | [] => true
  | value :: rest => jsWF value && jsWFElems rest

end


/-! ## Theorems: the validation engine -/

/-- Locating the first element satisfying `p` by its index. -/
theorem find?_eq_get_of_first {α : Type} (l : List α) (p : α → Bool) :
    ∀ (i : Nat) (hi : i < l.length), p (l.get ⟨i, hi⟩) = true →
      (∀ j (hj : j < i), p (l.get ⟨j, hj.trans hi⟩) = false) →
      l.find? p = some (l.get ⟨i, hi⟩) := by
  induction l with
  | nil => intro i hi; simp at hi
  | cons a t ih =>
    intro i hi hp hbefore
    cases i with
    | zero => simpa using List.find?_cons_of_pos t hp
    | succ i' =>
      have hpa : p a = false := hbefore 0 (Nat.succ_pos i')
      rw [List.find?_cons_of_neg t (by simp [hpa])]
      have hi' : i' < t.length := by simpa using hi
      have hp' : p (t.get ⟨i', hi'⟩) = true := by simpa using hp
      have hbefore' : ∀ j (hj : j < i'), p (t.get ⟨j, hj.trans hi'⟩) = false := by
        intro j hj
        have := hbefore (j + 1) (by omega)
        simpa using this
      simpa using ih i' hi' hp' hbefore'

/-- An entry whose key differs is skipped by an error-map lookup. -/
theorem lookupField_cons_ne (e : String × String) (m : List (String × String))
    (field : String) (h : e.1 ≠ field) :
    lookupField (e :: m) field = lookupField m field := by
  unfold lookupField
  rw [List.find?_cons_of_neg]
  simp [h]

/-- A field absent from the rule set is absent from the computed error map. -/
theorem lookupField_computeErrors_not_mem (rules : ValidationRules)
    (formData : String → Js) (field : String) :
    field ∉ rules.map Prod.fst →
    lookupField (computeErrors rules formData) field = none := by
  induction rules with
  | nil => intro _; rfl
  | cons fr rest ih =>
    intro h
    have hne : fr.1 ≠ field := by
      intro he; exact h (by simp [he])
    have hrest : field ∉ rest.map Prod.fst := by
      intro hm; exact h (by simp [hm])
    unfold computeErrors
    rw [List.filterMap_cons]
    cases hfind : (fr.2).find? fun rule => !(rule.validate (formData fr.1)) with
    | none =>
      simp only [hfind, Option.map_none']
      exact ih hrest
    | some r =>
      simp only [hfind, Option.map_some']
      rw [lookupField_cons_ne _ _ _ hne]
      exact ih hrest

/-- With distinct field names, the error-map entry of a field is exactly what
its own rule list's first failing rule produces. -/
theorem lookupField_computeErrors_eq (rules : ValidationRules)
    (formData : String → Js) (field : String) (fieldRules : List ValidationRule) :
    (field, fieldRules) ∈ rules → (rules.map Prod.fst).Nodup →
    lookupField (computeErrors rules formData) field =
      ((fieldRules.find? fun rule => !(rule.validate (formData field))).map
        fun failingRule => failingRule.message) := by
  induction rules with
  | nil => intro h; simp at h
  | cons fr rest ih =>
    intro hmem hnodup
    have hnodup' : (rest.map Prod.fst).Nodup := (List.nodup_cons.mp hnodup).2
    rcases List.mem_cons.mp hmem with heq | hrest
    · have hnotin : field ∉ rest.map Prod.fst := by
        have := (List.nodup_cons.mp hnodup).1
        rw [← heq] at this
        simpa using this
      unfold computeErrors
      rw [List.filterMap_cons, ← heq]
      cases hfind : fieldRules.find? fun rule => !(rule.validate (formData field)) with
      | none =>
        simp only [hfind, Option.map_none']
        rw [show lookupField (List.filterMap _ rest) field = none from
          lookupField_computeErrors_not_mem rest formData field hnotin]
      | some r =>
        simp only [hfind, Option.map_some']
        unfold lookupField
        rw [List.find?_cons_of_pos _ (by simp)]
        rfl
    · have hne : fr.1 ≠ field := by
        intro he
        have := (List.nodup_cons.mp hnodup).1
        exact this (he ▸ (List.mem_map.mpr ⟨(field, fieldRules), hrest, rfl⟩))
      unfold computeErrors
      rw [List.filterMap_cons]
      cases hfind : (fr.2).find? fun rule => !(rule.validate (formData fr.1)) with
      | none =>
        simp only [hfind, Option.map_none']
        exact ih hrest hnodup'
      | some r =>
        simp only [hfind, Option.map_some']
        rw [lookupField_cons_ne _ _ _ hne]
        exact ih hrest hnodup'

/-- C1: `validate(D)` returns true iff, for every field `f` that is a key of
the rule set, every rule of `R[f]` has a predicate returning true on `D[f]`
(the record function already reads an absent field as `undefined`). -/
theorem validate_true_iff (rules : ValidationRules) (formData : String → Js) :
    validate rules formData = true ↔
      ∀ field fieldRules, (field, fieldRules) ∈ rules →
        ∀ rule ∈ fieldRules, rule.validate (formData field) = true := by
  unfold validate computeErrors
  rw [List.isEmpty_iff, List.filterMap_eq_nil_iff]
  constructor
  · intro h field fieldRules hmem rule hrule
    have hnone := h (field, fieldRules) hmem
    rw [Option.map_eq_none', List.find?_eq_none] at hnone
    have := hnone rule hrule
    simpa using this
  · intro h fr hmem
    rw [Option.map_eq_none', List.find?_eq_none]
    intro rule hrule
    have : rule.validate (formData fr.1) = true := h fr.1 fr.2 hmem rule hrule
    simp [this]

/-- C2: when field `f`'s rules pass strictly before position `i` and fail at
`i`, the error map reports exactly rule `i`'s message for `f` — never a
later-failing rule's. -/
theorem validate_reports_first_failing_message (rules : ValidationRules)
    (formData : String → Js) (field : String) (fieldRules : List ValidationRule)
    (i : Nat) (hi : i < fieldRules.length)
    (hmem : (field, fieldRules) ∈ rules)
    (hnodup : (rules.map Prod.fst).Nodup)
    (hfail : (fieldRules.get ⟨i, hi⟩).validate (formData field) = false)
    (hbefore : ∀ j (hj : j < i),
      (fieldRules.get ⟨j, hj.trans hi⟩).validate (formData field) = true) :
    lookupField (computeErrors rules formData) field =
      some (fieldRules.get ⟨i, hi⟩).message := by
  rw [lookupField_computeErrors_eq rules formData field fieldRules hmem hnodup]
  rw [find?_eq_get_of_first fieldRules _ i hi (by simpa using hfail)
    (fun j hj => by simpa using hbefore j hj)]
  rfl

/-- C2 witness: `{amount: [required('Loan amount'), positiveNumber()]}` against
`{amount: "0"}` reports `positiveNumber`'s message (index 1), `required`
having passed at index 0. -/
theorem validate_reports_first_failing_message_witness :
    lookupField
      (computeErrors [("amount", [required "Loan amount", positiveNumber])]
        fun f => if f == "amount" then Js.str "0" else Js.undef)
      "amount" = some "Must be a positive number" :=
  by
  apply validate_reports_first_failing_message _ _ _
    [required "Loan amount", positiveNumber] 1 (by decide)
  · simp
  · simp
  · with_unfolding_all decide
  · intro j hj
    have hj0 : j = 0 := by omega
    subst hj0
    show (required "Loan amount").validate
      (if ("amount" == "amount") = true then Js.str "0" else Js.undef) = true
    with_unfolding_all decide

/-- Fields whose rules all pass contribute nothing to the error map. -/
theorem lookupField_computeErrors_none_of_pass (rules : ValidationRules)
    (formData : String → Js) (field : String) (fieldRules : List ValidationRule)
    (hmem : (field, fieldRules) ∈ rules)
    (hnodup : (rules.map Prod.fst).Nodup)
    (hpass : ∀ rule ∈ fieldRules, rule.validate (formData field) = true) :
    lookupField (computeErrors rules formData) field = none := by
  rw [lookupField_computeErrors_eq rules formData field fieldRules hmem hnodup]
  rw [List.find?_eq_none.mpr fun rule hrule => by simp [hpass rule hrule]]
  rfl

/-- C5: the engine's error map reflects only the most recent operation —
`validate` computes the new state from the record alone (any two prior states
give the same result), a field whose rules now all pass is absent from the new
map, and `clearErrors` always leaves the map empty. -/
theorem engine_state_replaced_wholesale (rules : ValidationRules)
    (formData : String → Js) (st st' : EngineState) :
    validateStep rules st formData = validateStep rules st' formData ∧
    (clearErrors st).errors = [] ∧
    ((rules.map Prod.fst).Nodup →
      ∀ field fieldRules, (field, fieldRules) ∈ rules →
        (∀ rule ∈ fieldRules, rule.validate (formData field) = true) →
        lookupField (validateStep rules st formData).1.errors field = none) := by
  refine ⟨rfl, rfl, ?_⟩
  intro hnodup field fieldRules hmem hpass
  exact lookupField_computeErrors_none_of_pass rules formData field fieldRules
    hmem hnodup hpass

/-- C10: evaluation stops at the first failing rule — both the computed error
map and the returned boolean are unchanged when the rules positioned after the
first failing rule are replaced by anything else (in particular removed), so a
later rule's predicate is never consulted. -/
theorem validate_ignores_rules_after_first_failure
    (rulesPre rulesPost : ValidationRules) (field : String)
    (pre : List ValidationRule) (r : ValidationRule)
    (post post' : List ValidationRule) (formData : String → Js)
    (hpass : ∀ rule ∈ pre, rule.validate (formData field) = true)
    (hfail : r.validate (formData field) = false) :
    computeErrors (rulesPre ++ (field, pre ++ r :: post) :: rulesPost) formData =
      computeErrors (rulesPre ++ (field, pre ++ r :: post') :: rulesPost) formData ∧
    validate (rulesPre ++ (field, pre ++ r :: post) :: rulesPost) formData =
      validate (rulesPre ++ (field, pre ++ r :: post') :: rulesPost) formData := by
  have hfind : ∀ rest : List ValidationRule,
      ((pre ++ r :: rest).find? fun rule => !(rule.validate (formData field))) =
        some r := by
    intro rest
    rw [List.find?_append]
    rw [List.find?_eq_none.mpr fun rule hrule => by simp [hpass rule hrule]]
    rw [List.find?_cons_of_pos _ (by simp [hfail])]
    rfl
  have herr : computeErrors (rulesPre ++ (field, pre ++ r :: post) :: rulesPost)
      formData =
      computeErrors (rulesPre ++ (field, pre ++ r :: post') :: rulesPost) formData := by
    unfold computeErrors
    rw [List.filterMap_append, List.filterMap_append,
      List.filterMap_cons, List.filterMap_cons]
    simp only [hfind post, hfind post']
  exact ⟨herr, by unfold validate; rw [herr]⟩

/-- C10 witness: with `{amount: [required, positiveNumber, numeric]}` on
`{amount: "0"}`, `required` passes and `positiveNumber` fails, so dropping the
trailing `numeric` rule changes neither the error map nor the result. -/
theorem validate_ignores_rules_after_first_failure_witness :
    computeErrors [("amount", [required "Loan amount", positiveNumber, numeric])]
        (fun f => if f == "amount" then Js.str "0" else Js.undef) =
      computeErrors [("amount", [required "Loan amount", positiveNumber])]
        (fun f => if f == "amount" then Js.str "0" else Js.undef) ∧
    validate [("amount", [required "Loan amount", positiveNumber, numeric])]
        (fun f => if f == "amount" then Js.str "0" else Js.undef) =
      validate [("amount", [required "Loan amount", positiveNumber])]
        (fun f => if f == "amount" then Js.str "0" else Js.undef) := by
  have h := validate_ignores_rules_after_first_failure
    [] [] "amount" [required "Loan amount"] positiveNumber [numeric] []
    (fun f => if f == "amount" then Js.str "0" else Js.undef)
    (fun rule hrule => by
      rw [show rule = required "Loan amount" by simpa using hrule]
      show (required "Loan amount").validate
        (if ("amount" == "amount") = true then Js.str "0" else Js.undef) = true
      with_unfolding_all decide)
    (by
      show positiveNumber.validate
        (if ("amount" == "amount") = true then Js.str "0" else Js.undef) = false
      with_unfolding_all decide)
  simpa using h

/-- `value === ''` holds exactly for the empty-string value. -/
theorem isEmptyString_eq_true_iff (v : Js) : isEmptyString v = true ↔ v = .str "" := by
  cases v <;> simp [isEmptyString]

/-- C6 counterexample: `numeric()` accepts the string `"Infinity"`, whose
`Number(...)` coercion is the non-finite value `Infinity` — so acceptance is
not equivalent to parsing as a *finite* number. -/
theorem numeric_accepts_infinity_string :
    numeric.validate (Js.str "Infinity") = true ∧
    jsToNumber (Js.str "Infinity") = JsNum.posInf := by
  constructor
  · with_unfolding_all decide
  · with_unfolding_all decide

/-- C6 (amended): `numeric()` accepts a value iff its `Number(...)` coercion is
a number — finite or infinite — and the value is not the empty string (which
coerces to `0` yet is rejected by the explicit `value !== ''` check); its
failure message is `'Must be a number'`. -/
theorem numeric_validate_iff (v : Js) :
    (numeric.validate v = true ↔
      ((∃ q, jsToNumber v = JsNum.fin q) ∨ jsToNumber v = JsNum.posInf ∨
        jsToNumber v = JsNum.negInf) ∧ v ≠ Js.str "") ∧
    numeric.message = "Must be a number" := by
  refine ⟨?_, rfl⟩
  show (!(jsToNumber v == JsNum.nan) && !(isEmptyString v)) = true ↔ _
  rw [Bool.and_eq_true, Bool.not_eq_true', Bool.not_eq_true', beq_eq_false_iff_ne]
  constructor
  · rintro ⟨hn, he⟩
    refine ⟨?_, fun hv => by simp [hv, isEmptyString] at he⟩
    cases hj : jsToNumber v with
    | nan => exact absurd hj hn
    | posInf => exact Or.inr (Or.inl rfl)
    | negInf => exact Or.inr (Or.inr rfl)
    | fin q => exact Or.inl ⟨q, rfl⟩
  · rintro ⟨hn, he⟩
    constructor
    · rcases hn with ⟨q, hq⟩ | hq | hq <;> simp [hq]
    · rw [← Bool.not_eq_true, isEmptyString_eq_true_iff]
      exact he

/-- C7: `positiveNumber()` rejects `"-5"` and accepts `"5"`; and
`{amount: [required('Loan amount'), positiveNumber()]}` against
`{amount: "0"}` fails with error map exactly
`{amount: "Must be a positive number"}` — `required` accepts the non-empty
string `"0"` while `positiveNumber` rejects it, `0` not being greater than
zero. -/
theorem positiveNumber_scenarios :
    positiveNumber.validate (Js.str "-5") = false ∧
    positiveNumber.validate (Js.str "5") = true ∧
    (required "Loan amount").validate (Js.str "0") = true ∧
    positiveNumber.validate (Js.str "0") = false ∧
    validate [("amount", [required "Loan amount", positiveNumber])]
      (fun f => if f == "amount" then Js.str "0" else Js.undef) = false ∧
    computeErrors [("amount", [required "Loan amount", positiveNumber])]
      (fun f => if f == "amount" then Js.str "0" else Js.undef) =
      [("amount", "Must be a positive number")] := by
  refine ⟨?_, ?_, ?_, ?_, ?_, ?_⟩ <;> with_unfolding_all decide

/-- C8 counterexample: the `NestedCard` leaf formatter is not total on
`undefined` — it falls through to `value.toString()`, which throws a
`TypeError` (modelled as `none`), rather than returning a placeholder. -/
theorem formatValue_undefined_throws : formatValue Js.undef = none := rfl

/-- C8 (amended): each leaf-format variant maps `null` to its fixed
placeholder (`'Not specified'` for `NestedCard`, `'null'` for
`JsonTreeViewer`), and `JsonTreeViewer` also maps `undefined` to
`'undefined'`; but `NestedCard` raises a `TypeError` on `undefined` instead of
returning a placeholder. -/
theorem leaf_formatters_on_null_undefined :
    formatValue Js.null = some "Not specified" ∧
    formattedValue Js.null = "null" ∧
    formattedValue Js.undef = "undefined" ∧
    formatValue Js.undef = none :=
  ⟨rfl, rfl, rfl, rfl⟩

/-- C9 counterexample: the `JsonTreeViewer` leaf formatter renders the number
`0` (which lies in `[0,1]`) as plain `"0"` via `toString`, not as the
two-decimal percentage `"0.00%"`. -/
theorem formattedValue_number_not_percentage :
    formattedValue (Js.num 0) = "0" ∧ ("0" : String) ≠ "0.00%" := by
  constructor
  · with_unfolding_all decide
  · decide

/-- A two-digit padded numeral always prints with exactly two characters. -/
theorem pad2_length : ∀ k, k < 100 → (pad2 k).length = 2 := by decide

/-- C9 (amended): the `NestedCard` leaf formatter renders a number in the
closed interval `[0,1]` as `toFixed(2)` of its value times 100 followed by
`'%'` — the part before `'%'` carrying exactly two digits after the decimal
point — and renders every number outside `[0,1]` with the locale
(thousands-separator) format; the `JsonTreeViewer` variant instead prints all
numbers with plain `toString`. -/
theorem formatValue_number_branches (q : ℚ) :
    (0 ≤ q → q ≤ 1 →
      formatValue (Js.num q) = some (jsToFixed2 (q * 100) ++ "%") ∧
      ∃ ip fr : String, jsToFixed2 (q * 100) = ip ++ "." ++ fr ∧ fr.length = 2) ∧
    (¬ (0 ≤ q ∧ q ≤ 1) → formatValue (Js.num q) = some (jsToLocaleString q)) ∧
    formattedValue (Js.num q) = jsNumToString q := by
  refine ⟨?_, ?_, rfl⟩
  · intro h0 h1
    refine ⟨?_, ?_⟩
    · show some (if 0 ≤ q ∧ q ≤ 1 then jsToFixed2 (q * 100) ++ "%" else jsToLocaleString q)
        = some (jsToFixed2 (q * 100) ++ "%")
      rw [if_pos ⟨h0, h1⟩]
    · refine ⟨(if q * 100 < 0 then "-" else "") ++
        natToDecString ((⌊|q * 100| * 100 + 1 / 2⌋).toNat / 100),
        pad2 ((⌊|q * 100| * 100 + 1 / 2⌋).toNat % 100), rfl, ?_⟩
      exact pad2_length _ (Nat.mod_lt _ (by norm_num))
  · intro h
    show some (if 0 ≤ q ∧ q ≤ 1 then jsToFixed2 (q * 100) ++ "%" else jsToLocaleString q)
      = some (jsToLocaleString q)
    rw [if_neg h]

/-- C9 witness: at `q = 1/2` the percentage branch applies and prints
`"50.00%"`; at `q = 2` the locale branch applies. -/
theorem formatValue_number_branches_witness :
    ((0 : ℚ) ≤ 1/2 → (1 : ℚ)/2 ≤ 1 →
      formatValue (Js.num (1/2)) = some (jsToFixed2 ((1 : ℚ)/2 * 100) ++ "%") ∧
      ∃ ip fr : String, jsToFixed2 ((1 : ℚ)/2 * 100) = ip ++ "." ++ fr ∧ fr.length = 2) ∧
    (¬ ((0 : ℚ) ≤ 1/2 ∧ (1 : ℚ)/2 ≤ 1) →
      formatValue (Js.num (1/2)) = some (jsToLocaleString (1/2))) ∧
    formattedValue (Js.num (1/2)) = jsNumToString (1/2) :=
  formatValue_number_branches (1/2)

/-! ## Theorems: the tree renderer -/

/-- C3 counterexample: rendering `{a: {b: 1}}` through
`ContractAnalysisDisplay`, the single obtainable leaf-click event carries
key `"B"` — the title-cased display key (`entry.key`), not the original
key `"b"`. -/
theorem contractAnalysis_click_key_is_display_key :
    (contractAnalysisEvents (Js.obj [("a", Js.obj [("b", Js.num 1)])])).map
      (fun e => e.key) = ["B"] ∧ ("B" : String) ≠ "b" :=
  ⟨rfl, by decide⟩

/-- C3 (amended): rendering `{a: {b: 1}}` and clicking the leaf `1` emits
exactly `{key: "B", value: 1, path: ["a","b"]}` — the key being the
title-cased display form of the leaf's own key, and the path the full ordered
sequence of original keys from the payload root, with no synthetic top-level
title segment. -/
theorem contractAnalysis_leaf_event :
    contractAnalysisEvents (Js.obj [("a", Js.obj [("b", Js.num 1)])]) =
      [⟨"B", Js.num 1, ["a", "b"]⟩] := rfl

/-- Flattening the leaf-click events of an object's entry rows is the walk of
those entries, shifted by the current path. -/
theorem nestedCardFieldEvents_map_eq (fields : List (String × Js)) (path : List String)
    (ih : ∀ k x, (k, x) ∈ fields → ∀ title path2,
      (nestedCardEvents title x path2).map (fun e => (e.path, e.value)) =
        (jsonWalk x).map (fun p => (path2 ++ p.1, p.2))) :
    (nestedCardFieldEvents fields path).map (fun e => (e.path, e.value)) =
      (jsonWalkFields fields).map (fun p => (path ++ p.1, p.2)) := by
  induction fields with
  | nil => rfl
  | cons hd rest ihrest =>
    obtain ⟨key, value⟩ := hd
    have hrest := ihrest fun k x hx => ih k x (List.mem_cons_of_mem _ hx)
    have hval := ih key value (List.mem_cons_self _ _)
    cases value <;>
      simp [nestedCardFieldEvents, jsonWalkFields, jsonWalk, hrest,
        hval _ (path ++ [key]), List.append_assoc]

/-- The same, for an array's entry rows counted from index `i`. -/
theorem nestedCardElemEvents_map_eq (elems : List Js) :
    ∀ (i : Nat) (path : List String),
    (∀ x ∈ elems, ∀ title path2,
      (nestedCardEvents title x path2).map (fun e => (e.path, e.value)) =
        (jsonWalk x).map (fun p => (path2 ++ p.1, p.2))) →
    (nestedCardElemEvents i elems path).map (fun e => (e.path, e.value)) =
      (jsonWalkElems i elems).map (fun p => (path ++ p.1, p.2)) := by
  induction elems with
  | nil => intro i path _; rfl
  | cons value rest ihrest =>
    intro i path ih
    have hrest := ihrest (i + 1) path fun x hx => ih x (List.mem_cons_of_mem _ hx)
    have hval := ih value (List.mem_cons_self _ _)
    cases value <;>
      simp [nestedCardElemEvents, jsonWalkElems, jsonWalk, hrest,
        hval _ (path ++ [natToDecString i]), List.append_assoc]

/-- The (path, value) pairs of a `NestedCard`'s leaf-click events are exactly
the recursive walk of its data, shifted by the starting path. -/
theorem nestedCardEvents_map_eq_walk : ∀ (v : Js) (title : String) (path : List String),
    (nestedCardEvents title v path).map (fun e => (e.path, e.value)) =
      (jsonWalk v).map (fun p => (path ++ p.1, p.2)) := by
  intro v
  induction v using Js.treeInd with
  | hnull => intro title path; simp [nestedCardEvents, jsonWalk]
  | hundef => intro title path; simp [nestedCardEvents, jsonWalk]
  | hbool b => intro title path; simp [nestedCardEvents, jsonWalk]
  | hnum q => intro title path; simp [nestedCardEvents, jsonWalk]
  | hstr s => intro title path; simp [nestedCardEvents, jsonWalk]
  | harr elems ih =>
    intro title path
    exact nestedCardElemEvents_map_eq elems 0 path fun x hx => ih x hx
  | hobj fields ih =>
    intro title path
    exact nestedCardFieldEvents_map_eq fields path fun k x hx => ih k x hx

/-- Well-formedness passes to an object's field values. -/
theorem jsWFFields_mem : ∀ (fields : List (String × Js)), jsWFFields fields = true →
    ∀ k x, (k, x) ∈ fields → jsWF x = true := by
  intro fields
  induction fields with
  | nil => intro _ k x hx; simp at hx
  | cons hd rest ih =>
    obtain ⟨k0, v0⟩ := hd
    intro h k x hx
    rw [show jsWFFields ((k0, v0) :: rest) = (jsWF v0 && jsWFFields rest) from rfl,
      Bool.and_eq_true] at h
    rcases List.mem_cons.mp hx with heq | hrest
    · cases heq; exact h.1
    · exact ih h.2 k x hrest

/-- Well-formedness passes to an array's elements. -/
theorem jsWFElems_mem : ∀ (elems : List Js), jsWFElems elems = true →
    ∀ x ∈ elems, jsWF x = true := by
  intro elems
  induction elems with
  | nil => intro _ x hx; simp at hx
  | cons v0 rest ih =>
    intro h x hx
    rw [show jsWFElems (v0 :: rest) = (jsWF v0 && jsWFElems rest) from rfl,
      Bool.and_eq_true] at h
    rcases List.mem_cons.mp hx with heq | hrest
    · cases heq; exact h.1
    · exact ih h.2 x hrest

/-- Every walk pair of an object decomposes into a field and a walk pair of
its value. -/
theorem jsonWalkFields_mem_decomp : ∀ (fields : List (String × Js)) (p : List String)
    (val : Js), (p, val) ∈ jsonWalkFields fields →
    ∃ key value q, (key, value) ∈ fields ∧ p = key :: q ∧ (q, val) ∈ jsonWalk value := by
  intro fields
  induction fields with
  | nil => intro p val h; simp [jsonWalkFields] at h
  | cons hd rest ih =>
    obtain ⟨key, value⟩ := hd
    intro p val h
    rw [show jsonWalkFields ((key, value) :: rest) =
        (jsonWalk value).map (fun p => (key :: p.1, p.2)) ++ jsonWalkFields rest from rfl,
      List.mem_append] at h
    rcases h with hmap | hrest
    · obtain ⟨⟨q, v⟩, hq, heq⟩ := List.mem_map.mp hmap
      cases heq
      exact ⟨key, value, q, List.mem_cons_self _ _, rfl, hq⟩
    · obtain ⟨key', value', q, hmem, hp, hq⟩ := ih p val hrest
      exact ⟨key', value', q, List.mem_cons_of_mem _ hmem, hp, hq⟩

/-- Every walk pair of an array (counted from `i`) decomposes into an element
at an offset and a walk pair of that element. -/
theorem jsonWalkElems_mem_decomp : ∀ (elems : List Js) (i : Nat) (p : List String)
    (val : Js), (p, val) ∈ jsonWalkElems i elems →
    ∃ j value q, elems.get? j = some value ∧ p = natToDecString (i + j) :: q ∧
      (q, val) ∈ jsonWalk value := by
  intro elems
  induction elems with
  | nil => intro i p val h; simp [jsonWalkElems] at h
  | cons value rest ih =>
    intro i p val h
    rw [show jsonWalkElems i (value :: rest) =
        (jsonWalk value).map (fun p => (natToDecString i :: p.1, p.2)) ++
          jsonWalkElems (i + 1) rest from rfl,
      List.mem_append] at h
    rcases h with hmap | hrest
    · obtain ⟨⟨q, v⟩, hq, heq⟩ := List.mem_map.mp hmap
      cases heq
      exact ⟨0, value, q, rfl, by rw [Nat.add_zero], hq⟩
    · obtain ⟨j, value', q, hget, hp, hq⟩ := ih (i + 1) p val hrest
      refine ⟨j + 1, value', q, by simpa using hget, ?_, hq⟩
      rw [hp, show i + 1 + j = i + (j + 1) by omega]

/-- With distinct keys, looking a member key up among an object's entries
finds exactly its entry. -/
theorem find?_fields_eq : ∀ (fields : List (String × Js)) (key : String) (value : Js),
    (key, value) ∈ fields → hasDupKeys (fields.map Prod.fst) = false →
    (fields.find? fun e => e.1 == key) = some (key, value) := by
  intro fields
  induction fields with
  | nil => intro key value h; simp at h
  | cons hd rest ih =>
    obtain ⟨k0, v0⟩ := hd
    intro key value hmem hdup
    rw [show hasDupKeys (((k0, v0) :: rest).map Prod.fst) =
        ((rest.map Prod.fst).contains k0 || hasDupKeys (rest.map Prod.fst)) from rfl,
      Bool.or_eq_false_iff] at hdup
    by_cases hk : k0 = key
    · subst hk
      have hhd : (k0, v0) = (k0, value) := by
        rcases List.mem_cons.mp hmem with heq | hrest
        · exact heq.symm
        · exfalso
          have hin : k0 ∈ rest.map Prod.fst :=
            List.mem_map.mpr ⟨(k0, value), hrest, rfl⟩
          have := List.elem_iff.mpr hin
          rw [show (rest.map Prod.fst).contains k0 = List.elem k0 (rest.map Prod.fst)
            from rfl, this] at hdup
          exact Bool.true_eq_false.mp hdup.1
      rw [List.find?_cons_of_pos _ (by simp)]
      rw [hhd]
    · have hrest : (key, value) ∈ rest := by
        rcases List.mem_cons.mp hmem with heq | hr
        · exact absurd (congrArg Prod.fst heq).symm hk
        · exact hr
      rw [List.find?_cons_of_neg _ (by simp [hk])]
      exact ih key value hrest hdup.2

/-- Looking an index key up among an array's `Object.entries` (counted from
`start`) finds exactly the element at that offset. -/
theorem find?_arr_idx : ∀ (elems : List Js) (start j : Nat) (value : Js),
    elems.get? j = some value →
    (((List.enumFrom start elems).map fun p => (natToDecString p.1, p.2)).find?
      fun e => e.1 == natToDecString (start + j)) =
      some (natToDecString (start + j), value) := by
  intro elems
  induction elems with
  | nil => intro start j value h; simp at h
  | cons x rest ih =>
    intro start j value h
    rw [show List.enumFrom start (x :: rest) =
      (start, x) :: List.enumFrom (start + 1) rest from rfl, List.map_cons]
    cases j with
    | zero =>
      have hx : x = value := by simpa using h
      subst hx
      rw [List.find?_cons_of_pos _ (by simp)]
      simp
    | succ j' =>
      have hget : rest.get? j' = some value := by simpa using h
      rw [List.find?_cons_of_neg _ (by
        intro hcontra
        have heq : natToDecString start = natToDecString (start + (j' + 1)) := by
          simpa using hcontra
        have := natToDecString_injective _ _ heq
        omega)]
      have := ih (start + 1) j' value hget
      rw [show start + 1 + j' = start + (j' + 1) by omega] at this
      exact this

/-- In a well-formed value, looking up any walk pair's path recovers its leaf
value. -/
theorem lookupJs_walk : ∀ v : Js, jsWF v = true →
    ∀ p val, (p, val) ∈ jsonWalk v → lookupJs v p = some val := by
  intro v
  induction v using Js.treeInd with
  | hnull =>
    intro _ p val h
    have hph : p = [] ∧ val = Js.null := by simpa [jsonWalk] using h
    rw [hph.1, hph.2]
    rfl
  | hundef =>
    intro _ p val h
    have hph : p = [] ∧ val = Js.undef := by simpa [jsonWalk] using h
    rw [hph.1, hph.2]
    rfl
  | hbool b =>
    intro _ p val h
    have hph : p = [] ∧ val = Js.bool b := by simpa [jsonWalk] using h
    rw [hph.1, hph.2]
    rfl
  | hnum q =>
    intro _ p val h
    have hph : p = [] ∧ val = Js.num q := by simpa [jsonWalk] using h
    rw [hph.1, hph.2]
    rfl
  | hstr s =>
    intro _ p val h
    have hph : p = [] ∧ val = Js.str s := by simpa [jsonWalk] using h
    rw [hph.1, hph.2]
    rfl
  | harr elems ih =>
    intro hwf p val h
    have hwfe : jsWFElems elems = true := by
      rw [show jsWF (Js.arr elems) = jsWFElems elems from rfl] at hwf
      exact hwf
    obtain ⟨j, value, q, hget, hp, hq⟩ :=
      jsonWalkElems_mem_decomp elems 0 p val
        (by rw [show jsonWalk (Js.arr elems) = jsonWalkElems 0 elems from rfl] at h; exact h)
    subst hp
    have hmemv : value ∈ elems := by
      rcases List.get?_eq_some.mp hget with ⟨hlt, hgeteq⟩
      exact hgeteq ▸ List.get_mem elems _ _
    rw [show lookupJs (Js.arr elems) (natToDecString (0 + j) :: q) =
      (match ((List.enumFrom 0 elems).map fun p => (natToDecString p.1, p.2)).find?
          (fun e => e.1 == natToDecString (0 + j)) with
        | some e => lookupJs e.2 q
        | none => none) from rfl]
    rw [find?_arr_idx elems 0 j value hget]
    exact ih value hmemv (jsWFElems_mem elems hwfe value hmemv) q val hq
  | hobj fields ih =>
    intro hwf p val h
    rw [show jsWF (Js.obj fields) =
      (!(hasDupKeys (fields.map Prod.fst)) && jsWFFields fields) from rfl,
      Bool.and_eq_true, Bool.not_eq_true'] at hwf
    obtain ⟨key, value, q, hmem, hp, hq⟩ :=
      jsonWalkFields_mem_decomp fields p val
        (by rw [show jsonWalk (Js.obj fields) = jsonWalkFields fields from rfl] at h; exact h)
    subst hp
    rw [show lookupJs (Js.obj fields) (key :: q) =
      (match fields.find? (fun e => e.1 == key) with
        | some e => lookupJs e.2 q
        | none => none) from rfl]
    rw [find?_fields_eq fields key value hmem hwf.1]
    exact ih key value hmem (jsWFFields_mem fields hwf.2 key value hmem) q val hq

/-- C4: for a finite acyclic JSON value with distinct object keys, the
(path, leaf value) pairs obtainable from the renderer's leaf-click events are
exactly those of a standard recursive walk — paths built from original object
keys and decimal array-index segments — and looking each emitted path up in
the value recovers exactly the clicked leaf value. -/
theorem treeRenderer_events_recover_walk (title : String) (v : Js)
    (hwf : jsWF v = true) :
    (nestedCardEvents title v []).map (fun e => (e.path, e.value)) = jsonWalk v ∧
    ∀ p val, (p, val) ∈ jsonWalk v → lookupJs v p = some val := by
  constructor
  · have h := nestedCardEvents_map_eq_walk v title []
    simpa using h
  · exact lookupJs_walk v hwf

/-- C4 witness: a payload with nested objects, an array and scalar leaves. -/
theorem treeRenderer_events_recover_walk_witness :
    jsWF (Js.obj [("a", Js.arr [Js.num 1, Js.obj [("b", Js.str "x")]]), ("c", Js.null)])
      = true ∧
    ((nestedCardEvents "Contract"
        (Js.obj [("a", Js.arr [Js.num 1, Js.obj [("b", Js.str "x")]]), ("c", Js.null)])
        []).map (fun e => (e.path, e.value)) =
      jsonWalk
        (Js.obj [("a", Js.arr [Js.num 1, Js.obj [("b", Js.str "x")]]), ("c", Js.null)]) ∧
    ∀ p val,
      (p, val) ∈ jsonWalk
        (Js.obj [("a", Js.arr [Js.num 1, Js.obj [("b", Js.str "x")]]), ("c", Js.null)]) →
      lookupJs
        (Js.obj [("a", Js.arr [Js.num 1, Js.obj [("b", Js.str "x")]]), ("c", Js.null)])
        p = some val) :=
  ⟨rfl, treeRenderer_events_recover_walk "Contract"
    (Js.obj [("a", Js.arr [Js.num 1, Js.obj [("b", Js.str "x")]]), ("c", Js.null)]) rfl⟩
